import Mathlib

/-!
Verification of the FoM (figure-of-merit) evaluation engine of
experiments/standard_cell_design/fanout_fom.hpp.

The engine evaluates a batch of candidate layouts against five scalar
metrics, normalizes each metric column by its observed maximum, combines
the normalized columns into one chi score per candidate with fixed signed
weights, and selects the candidate with the minimal score.

Real-number (double) scalars are embedded as exact rationals; the two
floating-point constants the code reads from numeric limits, namely
machine epsilon and the largest finite double, appear as exact rationals
as well.
-/

namespace FanoutFom

/-- Mirrors struct fom_metrics: five raw scalar metrics plus
the derived chi score; all fields value-initialized to 0. -/
structure fom_metrics where
  critical_temperature : ℚ := 0
  operational_domain_ratio : ℚ := 0
  defect_clearance_arsenic : ℚ := 0
  defect_clearance_vacancy : ℚ := 0
  band_bending_resilience_mV : ℚ := 0
  chi_value : ℚ := 0
deriving DecidableEq, Repr

instance : Inhabited fom_metrics := ⟨{}⟩

/-- Mirrors struct fom_evaluation_result. -/
structure fom_evaluation_result where
  metrics : List fom_metrics := []
  best_index : Nat := 0
  best_chi : ℚ := (2 ^ 53 - 1) * 2 ^ 971
deriving DecidableEq, Repr

/-- Exact value of std numeric limits double epsilon, 2 ^ (-52). -/
def double_epsilon : ℚ := 1 / 2 ^ 52

/-- Exact value of std numeric limits double max, (2 - 2 ^ (-52)) * 2 ^ 1023. -/
def double_max : ℚ := (2 ^ 53 - 1) * 2 ^ 971

/-- Mirrors the safe_norm lambda: guarded division by the column maximum;
a maximum at or below machine epsilon yields 0. -/
def safe_norm (value max_value : ℚ) : ℚ :=
  if max_value ≤ double_epsilon then 0 else value / max_value

/-- Column maximum of critical_temperature, accumulated from 0.0 as in the code. -/
def max_ct (ms : List fom_metrics) : ℚ :=
  ms.foldl (fun acc m => max acc m.critical_temperature) 0

/-- Column maximum of operational_domain_ratio. -/
def max_op_domain_ratio (ms : List fom_metrics) : ℚ :=
  ms.foldl (fun acc m => max acc m.operational_domain_ratio) 0

/-- Column maximum of defect_clearance_arsenic. -/
def max_clearance_ars (ms : List fom_metrics) : ℚ :=
  ms.foldl (fun acc m => max acc m.defect_clearance_arsenic) 0

/-- Column maximum of defect_clearance_vacancy. -/
def max_clearance_vac (ms : List fom_metrics) : ℚ :=
  ms.foldl (fun acc m => max acc m.defect_clearance_vacancy) 0

/-- Column maximum of band_bending_resilience_mV. -/
def max_bbr (ms : List fom_metrics) : ℚ :=
  ms.foldl (fun acc m => max acc m.band_bending_resilience_mV) 0

/-- Fixed signed weight for critical temperature. -/
def w_ct : ℚ := -1

/-- Fixed signed weight for operational domain ratio. -/
def w_op_domain : ℚ := -1

/-- Fixed signed weight for arsenic defect clearance. -/
def w_defect_arsenic : ℚ := 1

/-- Fixed signed weight for vacancy defect clearance. -/
def w_defect_vacancy : ℚ := 1

/-- Fixed signed weight for band bending resilience. -/
def w_bbr : ℚ := -1

/-- The chi score of one record, as computed in the aggregation loop:
the weighted sum of the five safe-normalized metric values. -/
def chi_of (ms : List fom_metrics) (m : fom_metrics) : ℚ :=
  w_ct * safe_norm m.critical_temperature (max_ct ms) +
  w_op_domain * safe_norm m.operational_domain_ratio (max_op_domain_ratio ms) +
  w_defect_arsenic * safe_norm m.defect_clearance_arsenic (max_clearance_ars ms) +
  w_defect_vacancy * safe_norm m.defect_clearance_vacancy (max_clearance_vac ms) +
  w_bbr * safe_norm m.band_bending_resilience_mV (max_bbr ms)

/-- The running-best fold of the aggregation loop: best_chi starts at
double max, best_idx at 0, and both update exactly when the current chi
is strictly below the best so far. -/
def selectBestAux : List ℚ → ℚ → Nat → Nat → ℚ × Nat
  | [], best_chi, best_idx, _ => (best_chi, best_idx)
  | c :: cs, best_chi, best_idx, i =>
    if c < best_chi then selectBestAux cs c i (i + 1)
    else selectBestAux cs best_chi best_idx (i + 1)

/-- Selection of the best chi value and its index over a list of chi values. -/
def selectBest (chis : List ℚ) : ℚ × Nat :=
  selectBestAux chis double_max 0 0

/-- The aggregation phase: writes each record's chi score and selects the
index of the minimal chi, mirroring the loops at the end of
evaluate_fom_metrics. -/
def aggregate (ms : List fom_metrics) : fom_evaluation_result :=
  let withChi := ms.map fun m => { m with chi_value := chi_of ms m }
  let best := selectBest (withChi.map fun m => m.chi_value)
  { metrics := withChi, best_index := best.2, best_chi := best.1 }

/-- Work-distributor model. One claim call: the shared counter is
incremented unconditionally (fetch_add); the call yields the pre-increment
value when it is below the candidate count, EXHAUSTED (none) otherwise.
A trace is the global sequence of claim calls, each tagged with the id of
the worker that made it; the counter threads through in program order. -/
def runClaims (total_layouts : Nat) : Nat → List Nat → List (Nat × Option Nat)
  | _, [] => []
  | counter, w :: ws =>
    if counter < total_layouts then
      (w, some counter) :: runClaims total_layouts (counter + 1) ws
    else
      (w, none) :: runClaims total_layouts (counter + 1) ws

/-- The indices successfully claimed over a whole trace, in claim order. -/
def claimedIndices (total_layouts : Nat) (trace : List Nat) : List Nat :=
  (runClaims total_layouts 0 trace).filterMap (fun e => e.2)

/-- A trace is complete when every one of the W workers has received
EXHAUSTED at least once, i.e. has left its claim loop. -/
def traceComplete (total_layouts W : Nat) (trace : List Nat) : Prop :=
  ∀ w, w < W → (w, (none : Option Nat)) ∈ runClaims total_layouts 0 trace

instance (total_layouts W : Nat) (trace : List Nat) :
    Decidable (traceComplete total_layouts W trace) := by
  unfold traceComplete; infer_instance

/-- Result-table construction: slots are pre-allocated value-initialized,
and the worker that claimed index i stores the computed record directly
into slot i; the order of the writes is the completion order. -/
def buildTable (total_layouts : Nat) (f : Nat → fom_metrics) (order : List Nat) :
    List fom_metrics :=
  order.foldl (fun t i => t.set i (f i)) (List.replicate total_layouts default)

/-- Per-worker contexts: the contexts vector holds one entry per worker,
each assigned the value of the same pure derivation from the shared base
context, mirroring the initialization loop over the contexts vector. -/
def worker_contexts {Base Ctx : Type} (thread_count : Nat) (derive_ctx : Base → Ctx)
    (base : Base) : List Ctx :=
  List.replicate thread_count (derive_ctx base)

/-- Effective worker-thread count, mirroring the derivation in
evaluate_fom_metrics: hardware concurrency with 0 treated as 1, capped at
128, optionally reduced by the parsed environment override (a strtoull
result; 0 stands for an unset, non-positive or unparsable override is the
parsed value 0 which is ignored), re-clamped to the hardware value and
floor 1, and finally bounded by the number of layouts. -/
def effective_thread_count (hardware_concurrency : Nat) (env_parsed : Option Nat)
    (total_layouts : Nat) : Nat :=
  let hardware_threads := if hardware_concurrency = 0 then 1 else hardware_concurrency
  let default_cap := 128
  let cap0 := if hardware_threads > default_cap then default_cap else hardware_threads
  let cap1 :=
    match env_parsed with
    | some parsed =>
      if parsed > 0 then min cap0 (max 1 (min parsed default_cap)) else cap0
    | none => cap0
  let thread_cap := max 1 (min cap1 hardware_threads)
  min thread_cap total_layouts

/-- Sequential metric evaluation, pure variant: empty input short-circuits
to none; otherwise every layout is evaluated and the table aggregated. -/
def evaluate_fom_metrics {α : Type} (gate_designs : List α)
    (computeMetric : α → fom_metrics) : Option fom_evaluation_result :=
  if gate_designs.isEmpty then none
  else some (aggregate (gate_designs.map computeMetric))

/-- The fixed header row of both report files. -/
def fom_report_header : String :=
  "index,critical_temperature_K,operational_domain_ratio,defect_clearance_arsenic_nm,defect_clearance_vacancy_nm,band_bending_resilience_mV,chi"

/-- One report artifact: the header row plus the data rows, a data row
being the sequence index together with the metric record printed there. -/
structure report_file where
  header : String
  rows : List (Nat × fom_metrics)
deriving DecidableEq, Repr

/-- compute_fom: on empty input prints a skip notice, writes (when
requested) the two report files containing only the header row, and
returns no result; otherwise evaluates, optionally writes the full table
report and the best-only report, and returns the best index. -/
def compute_fom {α : Type} (gate_designs : List α) (computeMetric : α → fom_metrics)
    (save_report : Bool) : Option Nat × List report_file :=
  if gate_designs.isEmpty then
    (none,
     if save_report then
       [{ header := fom_report_header, rows := [] },
        { header := fom_report_header, rows := [] }]
     else [])
  else
    match evaluate_fom_metrics gate_designs computeMetric with
    | none => (none, [])
    | some evaluation =>
      (some evaluation.best_index,
       if save_report then
         [{ header := fom_report_header,
            rows := (List.range evaluation.metrics.length).zip evaluation.metrics },
          { header := fom_report_header,
            rows := [(evaluation.best_index,
                      evaluation.metrics.getD evaluation.best_index default)] }]
       else [])

/-- Sequential evaluation of a list of candidate indices with a fallible
metric computation: the loop runs in index order and an unrecoverable
failure aborts it, propagating the raised error unchanged. -/
def mapExcept {ε : Type} (compute : Nat → Except ε fom_metrics) :
    List Nat → Except ε (List fom_metrics)
  | [] => .ok []
  | i :: is =>
    match compute i with
    | .error e => .error e
    | .ok m =>
      match mapExcept compute is with
      | .error e => .error e
      | .ok ms => .ok (m :: ms)

/-- Whole evaluation with a fallible metric computation: empty input
yields the explicit empty outcome; otherwise all indices are computed in
order and the table aggregated, any metric failure aborting the whole
evaluation with the propagated error. -/
def evaluate_fom_seq {ε : Type} (total_layouts : Nat)
    (compute : Nat → Except ε fom_metrics) : Except ε (Option fom_evaluation_result) :=
  if total_layouts = 0 then .ok none
  else
    match mapExcept compute (List.range total_layouts) with
    | .error e => .error e
    | .ok ms => .ok (some (aggregate ms))

/-- A metric computation that raises an unrecoverable condition exactly at
candidate index k and succeeds with a value-initialized record elsewhere. -/
def failAt (k : Nat) : Nat → Except Unit fom_metrics :=
  fun i => if i = k then .error () else .ok {}

/-- The record a worker stores into its claimed slot, as written by
compute_with_context: the entry is reset to value initialization and the
five raw metric fields are then assigned; the chi field is not assigned
by the worker and keeps its value-initialized 0. -/
def worker_record (ct opd dca dcv bbr : ℚ) : fom_metrics :=
  { critical_temperature := ct, operational_domain_ratio := opd,
    defect_clearance_arsenic := dca, defect_clearance_vacancy := dcv,
    band_bending_resilience_mV := bbr, chi_value := 0 }

/-- The concrete three-candidate metric table of the testable-properties
scenario: raw metrics (CT, OPD, ArsenicClearance, VacancyClearance, BBR). -/
def scenario_table : List fom_metrics :=
  [{ critical_temperature := 100, operational_domain_ratio := 1 / 2,
     defect_clearance_arsenic := 2, defect_clearance_vacancy := 1,
     band_bending_resilience_mV := 50 },
   { critical_temperature := 200, operational_domain_ratio := 4 / 5,
     defect_clearance_arsenic := 1, defect_clearance_vacancy := 1 / 2,
     band_bending_resilience_mV := 80 },
   { critical_temperature := 150, operational_domain_ratio := 1 / 5,
     defect_clearance_arsenic := 3, defect_clearance_vacancy := 2,
     band_bending_resilience_mV := 20 }]

/-- The successful claims of a trace are the counter values in program
order: the consecutive range starting at the initial counter, cut off by
both the trace length and the candidate count. -/
theorem claimed_eq_range (N : Nat) :
    ∀ (trace : List Nat) (counter : Nat),
      (runClaims N counter trace).filterMap (fun e => e.2)
        = List.range' counter (min trace.length (N - counter)) := by
  intro trace
  induction trace with
  | nil => intro counter; simp [runClaims]
  | cons w ws ih =>
    intro counter
    by_cases h : counter < N
    · simp only [runClaims, if_pos h, List.filterMap_cons]
      rw [ih (counter + 1)]
      have hmin : min (w :: ws).length (N - counter)
          = min ws.length (N - (counter + 1)) + 1 := by
        simp only [List.length_cons]; omega
      rw [hmin, List.range'_succ]
    · simp only [runClaims, if_neg h, List.filterMap_cons]
      rw [ih (counter + 1)]
      have h1 : N - counter = 0 := by omega
      have h2 : N - (counter + 1) = 0 := by omega
      simp [h1, h2]

/-- A call that observed EXHAUSTED has a pre-increment counter value of at
least N, so the trace extends at least to position N. -/
theorem exhausted_le (N : Nat) :
    ∀ (trace : List Nat) (counter w : Nat),
      (w, (none : Option Nat)) ∈ runClaims N counter trace →
      N ≤ counter + trace.length := by
  intro trace
  induction trace with
  | nil => intro counter w h; simp [runClaims] at h
  | cons v ws ih =>
    intro counter w h
    by_cases hc : counter < N
    · simp only [runClaims, if_pos hc, List.mem_cons] at h
      rcases h with h | h
      · simp at h
      · have := ih (counter + 1) w h
        simp only [List.length_cons]
        omega
    · simp only [List.length_cons]
      omega

/-- Writing into a fixed table preserves its length. -/
theorem foldl_set_length (f : Nat → fom_metrics) :
    ∀ (order : List Nat) (t : List fom_metrics),
      (order.foldl (fun t i => t.set i (f i)) t).length = t.length := by
  intro order
  induction order with
  | nil => intro t; rfl
  | cons j js ih =>
    intro t
    simp only [List.foldl_cons]
    rw [ih]
    exact List.length_set t j (f j)

/-- A slot whose index is never claimed in the order keeps its initial
content. -/
theorem foldl_set_get_not_mem (f : Nat → fom_metrics) :
    ∀ (order : List Nat) (t : List fom_metrics) (i : Nat), i ∉ order →
      (order.foldl (fun t i => t.set i (f i)) t).get? i = t.get? i := by
  intro order
  induction order with
  | nil => intro t i _; rfl
  | cons j js ih =>
    intro t i hi
    simp only [List.mem_cons, not_or] at hi
    simp only [List.foldl_cons]
    rw [ih (t.set j (f j)) i hi.2, List.get?_set_ne]
    exact fun h => hi.1 h.symm

/-- A slot whose index appears in the order holds the record computed for
that index: later writes to the same index store the same value. -/
theorem foldl_set_get_mem (f : Nat → fom_metrics) :
    ∀ (order : List Nat) (t : List fom_metrics) (i : Nat),
      i ∈ order → i < t.length →
      (order.foldl (fun t i => t.set i (f i)) t).get? i = some (f i) := by
  intro order
  induction order with
  | nil => intro t i hi _; simp at hi
  | cons j js ih =>
    intro t i hi hlen
    simp only [List.foldl_cons]
    by_cases hmem : i ∈ js
    · exact ih (t.set j (f j)) i hmem (by rw [List.length_set]; exact hlen)
    · have hij : i = j := by
        rcases List.mem_cons.mp hi with h | h
        · exact h
        · exact absurd h hmem
      subst hij
      rw [foldl_set_get_not_mem f js (t.set i (f i)) i hmem]
      exact List.get?_set_eq_of_lt (f i) hlen

/-- Whenever the processing order is a permutation of the index range, the
built table is the pointwise image of the pure per-index computation. -/
theorem buildTable_eq_map (N : Nat) (f : Nat → fom_metrics) (order : List Nat)
    (hperm : order.Perm (List.range N)) :
    buildTable N f order = (List.range N).map f := by
  apply List.ext
  intro i
  unfold buildTable
  by_cases hi : i < N
  · have hmem : i ∈ order := hperm.mem_iff.mpr (List.mem_range.mpr hi)
    rw [foldl_set_get_mem f order _ i hmem
      (by rw [List.length_replicate]; exact hi)]
    rw [List.get?_map, List.get?_range hi]
    rfl
  · have hmem : i ∉ order := fun h => hi (List.mem_range.mp (hperm.mem_iff.mp h))
    rw [foldl_set_get_not_mem f order _ i hmem]
    rw [List.get?_eq_none.mpr (by rw [List.length_replicate]; omega)]
    rw [List.get?_eq_none.mpr (by rw [List.length_map, List.length_range]; omega)]

/-- A fold of maxima stays at its accumulator when no element exceeds it. -/
theorem foldl_max_eq_self (g : fom_metrics → ℚ) :
    ∀ (l : List fom_metrics) (a : ℚ), (∀ m ∈ l, g m ≤ a) →
      l.foldl (fun acc m => max acc (g m)) a = a := by
  intro l
  induction l with
  | nil => intro a _; rfl
  | cons m l ih =>
    intro a h
    simp only [List.foldl_cons]
    rw [max_eq_left (h m (List.mem_cons_self m l))]
    exact ih a fun m' hm' => h m' (List.mem_cons_of_mem m hm')

/-- A fold of maxima never drops below its accumulator. -/
theorem le_foldl_max (g : fom_metrics → ℚ) :
    ∀ (l : List fom_metrics) (a : ℚ),
      a ≤ l.foldl (fun acc m => max acc (g m)) a := by
  intro l
  induction l with
  | nil => intro a; exact le_refl a
  | cons m l ih =>
    intro a
    simp only [List.foldl_cons]
    exact le_trans (le_max_left a (g m)) (ih (max a (g m)))

/-- Every listed value is bounded by the fold of maxima over the list. -/
theorem mem_le_foldl_max (g : fom_metrics → ℚ) :
    ∀ (l : List fom_metrics) (a : ℚ) (m : fom_metrics), m ∈ l →
      g m ≤ l.foldl (fun acc m => max acc (g m)) a := by
  intro l
  induction l with
  | nil => intro a m h; simp at h
  | cons m' l ih =>
    intro a m hm
    simp only [List.foldl_cons]
    rcases List.mem_cons.mp hm with h | h
    · subst h
      exact le_trans (le_max_right a (g m)) (le_foldl_max g l (max a (g m)))
    · exact ih (max a (g m')) m h

/-- Machine epsilon is positive. -/
theorem double_epsilon_pos : 0 < double_epsilon := by
  norm_num [double_epsilon]

/-- The guarded normalization of a nonnegative value is nonnegative. -/
theorem safe_norm_nonneg (v mx : ℚ) (hv : 0 ≤ v) : 0 ≤ safe_norm v mx := by
  unfold safe_norm
  split_ifs with h
  · exact le_refl 0
  · exact div_nonneg hv (le_of_lt (lt_trans double_epsilon_pos (lt_of_not_le h)))

/-- The guarded normalization of a value bounded by its column maximum is
at most one. -/
theorem safe_norm_le_one (v mx : ℚ) (hvm : v ≤ mx) : safe_norm v mx ≤ 1 := by
  unfold safe_norm
  split_ifs with h
  · norm_num
  · exact (div_le_one (lt_trans double_epsilon_pos (lt_of_not_le h))).mpr hvm

/-- With nonnegative raw metrics, the chi score of a listed record is at
most 2: the two positively weighted normalized terms are at most one each
and the three negatively weighted ones are nonnegative. -/
theorem chi_of_le_two (ms : List fom_metrics) (m : fom_metrics) (hm : m ∈ ms)
    (h1 : 0 ≤ m.critical_temperature) (h2 : 0 ≤ m.operational_domain_ratio)
    (h5 : 0 ≤ m.band_bending_resilience_mV) :
    chi_of ms m ≤ 2 := by
  have n1 := safe_norm_nonneg m.critical_temperature (max_ct ms) h1
  have n2 := safe_norm_nonneg m.operational_domain_ratio (max_op_domain_ratio ms) h2
  have n5 := safe_norm_nonneg m.band_bending_resilience_mV (max_bbr ms) h5
  have n3 : safe_norm m.defect_clearance_arsenic (max_clearance_ars ms) ≤ 1 :=
    safe_norm_le_one _ _
      (mem_le_foldl_max (fun m => m.defect_clearance_arsenic) ms 0 m hm)
  have n4 : safe_norm m.defect_clearance_vacancy (max_clearance_vac ms) ≤ 1 :=
    safe_norm_le_one _ _
      (mem_le_foldl_max (fun m => m.defect_clearance_vacancy) ms 0 m hm)
  unfold chi_of w_ct w_op_domain w_defect_arsenic w_defect_vacancy w_bbr
  linarith

/-- Two is below the largest finite double. -/
theorem two_lt_double_max : (2 : ℚ) < double_max := by
  norm_num [double_max]

/-- The running-best fold keeps its accumulator when no chi value is
strictly below it. -/
theorem selectBestAux_no_update :
    ∀ (chis : List ℚ) (b : ℚ) (bi i0 : Nat), (∀ c ∈ chis, ¬ c < b) →
      selectBestAux chis b bi i0 = (b, bi) := by
  intro chis
  induction chis with
  | nil => intro b bi i0 _; rfl
  | cons c cs ih =>
    intro b bi i0 h
    simp only [selectBestAux, if_neg (h c (List.mem_cons_self c cs))]
    exact ih b bi (i0 + 1) fun c' hc' => h c' (List.mem_cons_of_mem c hc')

/-- When some chi value is strictly below the accumulator, the
running-best fold returns the first position achieving the minimum: the
returned value is that minimum, every listed value is at least it, and
every strictly earlier value is strictly above it. -/
theorem selectBestAux_found :
    ∀ (chis : List ℚ) (b : ℚ) (bi i0 : Nat), (∃ c ∈ chis, c < b) →
      ∃ k, ∃ hk : k < chis.length,
        selectBestAux chis b bi i0 = (chis.get ⟨k, hk⟩, i0 + k) ∧
        chis.get ⟨k, hk⟩ < b ∧
        (∀ j, ∀ hj : j < chis.length, chis.get ⟨k, hk⟩ ≤ chis.get ⟨j, hj⟩) ∧
        (∀ j, ∀ hj : j < chis.length, j < k →
          chis.get ⟨k, hk⟩ < chis.get ⟨j, hj⟩) := by
  intro chis
  induction chis with
  | nil => intro b bi i0 h; simp at h
  | cons c cs ih =>
    intro b bi i0 h
    by_cases hc : c < b
    · simp only [selectBestAux, if_pos hc]
      by_cases htail : ∃ c' ∈ cs, c' < c
      · obtain ⟨k, hk, heq, hlt, hmin, hfirst⟩ := ih c i0 (i0 + 1) htail
        refine ⟨k + 1, Nat.succ_lt_succ hk, ?_, lt_trans hlt hc, ?_, ?_⟩
        · rw [heq]
          exact congrArg₂ Prod.mk rfl (by omega)
        · intro j hj
          cases j with
          | zero => exact le_of_lt hlt
          | succ j' => exact hmin j' (Nat.lt_of_succ_lt_succ hj)
        · intro j hj hjk
          cases j with
          | zero => exact hlt
          | succ j' =>
            exact hfirst j' (Nat.lt_of_succ_lt_succ hj) (Nat.lt_of_succ_lt_succ hjk)
      · push_neg at htail
        have hnone : ∀ c' ∈ cs, ¬ c' < c := fun c' hc' => not_lt.mpr (htail c' hc')
        refine ⟨0, Nat.succ_pos cs.length, ?_, hc, ?_, ?_⟩
        · rw [selectBestAux_no_update cs c i0 (i0 + 1) hnone]
          exact congrArg₂ Prod.mk rfl (by omega)
        · intro j hj
          cases j with
          | zero => exact le_refl c
          | succ j' =>
            exact htail (cs.get ⟨j', Nat.lt_of_succ_lt_succ hj⟩)
              (List.get_mem cs j' (Nat.lt_of_succ_lt_succ hj))
        · intro j hj hjk
          exact absurd hjk (Nat.not_lt_zero j)
    · simp only [selectBestAux, if_neg hc]
      have htail : ∃ c' ∈ cs, c' < b := by
        obtain ⟨c', hc', hlt'⟩ := h
        rcases List.mem_cons.mp hc' with h' | h'
        · subst h'; exact absurd hlt' hc
        · exact ⟨c', h', hlt'⟩
      obtain ⟨k, hk, heq, hlt, hmin, hfirst⟩ := ih b bi (i0 + 1) htail
      have hcb : b ≤ c := le_of_not_lt hc
      refine ⟨k + 1, Nat.succ_lt_succ hk, ?_, hlt, ?_, ?_⟩
      · rw [heq]
        exact congrArg₂ Prod.mk rfl (by omega)
      · intro j hj
        cases j with
        | zero => exact le_of_lt (lt_of_lt_of_le hlt hcb)
        | succ j' => exact hmin j' (Nat.lt_of_succ_lt_succ hj)
      · intro j hj hjk
        cases j with
        | zero => exact lt_of_lt_of_le hlt hcb
        | succ j' =>
          exact hfirst j' (Nat.lt_of_succ_lt_succ hj) (Nat.lt_of_succ_lt_succ hjk)

/-- The sequential fallible loop propagates the error raised at the first
failing index of a consecutive index range. -/
theorem mapExcept_range_error {ε : Type} (compute : Nat → Except ε fom_metrics)
    (e : ε) :
    ∀ (n s i : Nat), s ≤ i → i < s + n → compute i = .error e →
      (∀ j, s ≤ j → j < i → ∃ m, compute j = .ok m) →
      mapExcept compute (List.range' s n) = .error e := by
  intro n
  induction n with
  | zero => intro s i h1 h2 _ _; omega
  | succ n ih =>
    intro s i h1 h2 herr hpre
    rw [List.range'_succ]
    by_cases hsi : s = i
    · subst hsi
      simp only [mapExcept, herr]
    · obtain ⟨m, hm⟩ := hpre s (le_refl s) (by omega)
      simp only [mapExcept, hm]
      rw [ih (s + 1) i (by omega) (by omega) herr
        (fun j hj1 hj2 => hpre j (by omega) hj2)]

/-- The metric list of the aggregation result is the input list with each
chi field overwritten by the chi score of that record. -/
theorem aggregate_metrics (ms : List fom_metrics) :
    (aggregate ms).metrics = ms.map fun m => { m with chi_value := chi_of ms m } :=
  rfl

/-- The chi column of the aggregation result is the chi score of each
input record. -/
theorem aggregate_chis (ms : List fom_metrics) :
    (aggregate ms).metrics.map (fun m => m.chi_value) = ms.map (chi_of ms) := by
  rw [aggregate_metrics, List.map_map]
  rfl

/-- Best index and best chi come from the running-best fold over the chi
column. -/
theorem aggregate_best (ms : List fom_metrics) :
    ((aggregate ms).best_chi, (aggregate ms).best_index)
      = selectBest (ms.map (chi_of ms)) := by
  have h := aggregate_chis ms
  simp only [aggregate] at h ⊢
  rw [h]

/-- C1: on the concrete 3-candidate table with raw metrics
(100, 0.5, 2.0, 1.0, 50), (200, 0.8, 1.0, 0.5, 80), (150, 0.2, 3.0, 2.0, 20),
the aggregation computes column maxima (200, 0.8, 3.0, 2.0, 80), scores
each candidate by chi = -norm CT - norm OPD + norm Ars + norm Vac
- norm BBR, giving exactly -7/12 (about -0.583), -29/12 (about -2.417)
and 3/4 = 0.75, and selects best index 1 with the minimal score. -/
theorem C1_concrete_scenario :
    max_ct scenario_table = 200 ∧
    max_op_domain_ratio scenario_table = 4 / 5 ∧
    max_clearance_ars scenario_table = 3 ∧
    max_clearance_vac scenario_table = 2 ∧
    max_bbr scenario_table = 80 ∧
    (∀ ms m, chi_of ms m =
      -safe_norm m.critical_temperature (max_ct ms)
        - safe_norm m.operational_domain_ratio (max_op_domain_ratio ms)
        + safe_norm m.defect_clearance_arsenic (max_clearance_ars ms)
        + safe_norm m.defect_clearance_vacancy (max_clearance_vac ms)
        - safe_norm m.band_bending_resilience_mV (max_bbr ms)) ∧
    (aggregate scenario_table).metrics.map (fun m => m.chi_value)
      = [-7 / 12, -29 / 12, 3 / 4] ∧
    (aggregate scenario_table).best_index = 1 ∧
    (aggregate scenario_table).best_chi = -29 / 12 := by
  refine ⟨?_, ?_, ?_, ?_, ?_, ?_, ?_, ?_, ?_⟩
  · norm_num [max_ct, scenario_table]
  · norm_num [max_op_domain_ratio, scenario_table]
  · norm_num [max_clearance_ars, scenario_table]
  · norm_num [max_clearance_vac, scenario_table]
  · norm_num [max_bbr, scenario_table]
  · intro ms m
    unfold chi_of w_ct w_op_domain w_defect_arsenic w_defect_vacancy w_bbr
    ring
  · norm_num [aggregate, scenario_table, chi_of, safe_norm,
      max_ct, max_op_domain_ratio, max_clearance_ars, max_clearance_vac, max_bbr,
      double_epsilon, w_ct, w_op_domain, w_defect_arsenic, w_defect_vacancy, w_bbr]
  · norm_num [aggregate, scenario_table, chi_of, selectBest, selectBestAux, safe_norm,
      max_ct, max_op_domain_ratio, max_clearance_ars, max_clearance_vac, max_bbr,
      double_epsilon, double_max, w_ct, w_op_domain, w_defect_arsenic,
      w_defect_vacancy, w_bbr]
  · norm_num [aggregate, scenario_table, chi_of, selectBest, selectBestAux, safe_norm,
      max_ct, max_op_domain_ratio, max_clearance_ars, max_clearance_vac, max_bbr,
      double_epsilon, double_max, w_ct, w_op_domain, w_defect_arsenic,
      w_defect_vacancy, w_bbr]

/-- C2: the work distributor, a single shared counter starting at 0 and
incremented on every claim, hands out each index below N to exactly one
claim call: for every worker count W of at least one and every completed
trace, the sequence of claimed indices is exactly 0, ..., N-1, with no
duplicates and no omissions. -/
theorem C2_distributor_exactly_once (N W : Nat) (trace : List Nat)
    (hW : 0 < W) (hcomp : traceComplete N W trace) :
    claimedIndices N trace = List.range N ∧
    (claimedIndices N trace).Nodup ∧
    (∀ i, i < N → (claimedIndices N trace).count i = 1) ∧
    (∀ i, i ∈ claimedIndices N trace → i < N) := by
  have h0 := hcomp 0 hW
  have hlen : N ≤ trace.length := by
    have := exhausted_le N trace 0 0 h0
    omega
  have hce : claimedIndices N trace = List.range N := by
    unfold claimedIndices
    rw [claimed_eq_range N trace 0]
    have hm : min trace.length (N - 0) = N := by omega
    rw [hm, ← List.range_eq_range' N]
  refine ⟨hce, ?_, ?_, ?_⟩
  · rw [hce]; exact List.nodup_range N
  · intro i hi
    rw [hce]
    exact List.count_eq_one_of_mem (List.nodup_range N) (List.mem_range.mpr hi)
  · intro i hi
    rw [hce] at hi
    exact List.mem_range.mp hi

/-- Witness for C2 at N = 3, W = 2 and a concrete interleaved trace in
which both workers run until exhaustion. -/
theorem C2_distributor_exactly_once_witness :
    (0 < 2 ∧ traceComplete 3 2 [0, 1, 0, 1, 0, 1]) ∧
    (claimedIndices 3 [0, 1, 0, 1, 0, 1] = List.range 3 ∧
     (claimedIndices 3 [0, 1, 0, 1, 0, 1]).Nodup ∧
     (∀ i, i < 3 → (claimedIndices 3 [0, 1, 0, 1, 0, 1]).count i = 1) ∧
     (∀ i, i ∈ claimedIndices 3 [0, 1, 0, 1, 0, 1] → i < 3)) :=
  ⟨⟨by decide, by decide⟩,
   C2_distributor_exactly_once 3 2 [0, 1, 0, 1, 0, 1] (by decide) (by decide)⟩

/-- C3: for every permutation of the processing order of the indices, the
built result table equals the table of the sequential in-order path and
the pointwise image of the pure per-index computation, the aggregation of
the two tables is identical, and every worker context derived from the
same base context is the same value. -/
theorem C3_order_independence {Base Ctx : Type} (N W : Nat)
    (f : Nat → fom_metrics) (order : List Nat) (derive_ctx : Base → Ctx)
    (base : Base) (hperm : order.Perm (List.range N)) :
    buildTable N f order = buildTable N f (List.range N) ∧
    buildTable N f order = (List.range N).map f ∧
    aggregate (buildTable N f order) = aggregate ((List.range N).map f) ∧
    (∀ t, ∀ ht : t < (worker_contexts W derive_ctx base).length,
      (worker_contexts W derive_ctx base).get ⟨t, ht⟩ = derive_ctx base) := by
  have h1 := buildTable_eq_map N f order hperm
  have h2 := buildTable_eq_map N f (List.range N) (List.Perm.refl _)
  refine ⟨h1.trans h2.symm, h1, by rw [h1], ?_⟩
  intro t ht
  exact List.get_replicate (derive_ctx base) ⟨t, ht⟩

/-- Witness for C3 at N = 3 with processing order 2, 0, 1 and two workers
deriving their context from a trivial base. -/
theorem C3_order_independence_witness :
    List.Perm [2, 0, 1] (List.range 3) ∧
    (buildTable 3 (fun i => worker_record i 0 0 0 0) [2, 0, 1]
        = buildTable 3 (fun i => worker_record i 0 0 0 0) (List.range 3) ∧
     buildTable 3 (fun i => worker_record i 0 0 0 0) [2, 0, 1]
        = (List.range 3).map (fun i => worker_record i 0 0 0 0) ∧
     aggregate (buildTable 3 (fun i => worker_record i 0 0 0 0) [2, 0, 1])
        = aggregate ((List.range 3).map (fun i => worker_record i 0 0 0 0)) ∧
     (∀ t, ∀ ht : t < (worker_contexts 2 (fun _ : Unit => ()) ()).length,
       (worker_contexts 2 (fun _ : Unit => ()) ()).get ⟨t, ht⟩ = ())) :=
  ⟨by decide,
   C3_order_independence 3 2 (fun i => worker_record i 0 0 0 0) [2, 0, 1]
     (fun _ : Unit => ()) () (by decide)⟩

/-- C4: normalization is guarded against division by near zero: any column
maximum at or below machine epsilon makes the normalized value of every
record exactly 0; in particular, when every record of every column is 0,
all five column maxima are 0 and every normalized value is 0. -/
theorem C4_normalization_guard (ms : List fom_metrics) (v : ℚ)
    (hz : ∀ m ∈ ms, m.critical_temperature = 0 ∧ m.operational_domain_ratio = 0 ∧
      m.defect_clearance_arsenic = 0 ∧ m.defect_clearance_vacancy = 0 ∧
      m.band_bending_resilience_mV = 0) :
    (∀ max_value : ℚ, max_value ≤ double_epsilon → safe_norm v max_value = 0) ∧
    (max_ct ms = 0 ∧ max_op_domain_ratio ms = 0 ∧ max_clearance_ars ms = 0 ∧
     max_clearance_vac ms = 0 ∧ max_bbr ms = 0) ∧
    (∀ m ∈ ms,
      safe_norm m.critical_temperature (max_ct ms) = 0 ∧
      safe_norm m.operational_domain_ratio (max_op_domain_ratio ms) = 0 ∧
      safe_norm m.defect_clearance_arsenic (max_clearance_ars ms) = 0 ∧
      safe_norm m.defect_clearance_vacancy (max_clearance_vac ms) = 0 ∧
      safe_norm m.band_bending_resilience_mV (max_bbr ms) = 0) := by
  have hguard : ∀ (w max_value : ℚ), max_value ≤ double_epsilon →
      safe_norm w max_value = 0 := by
    intro w mx h
    unfold safe_norm
    rw [if_pos h]
  have heps : (0 : ℚ) ≤ double_epsilon := le_of_lt double_epsilon_pos
  have h1 : max_ct ms = 0 :=
    foldl_max_eq_self _ ms 0 fun m hm => le_of_eq (hz m hm).1
  have h2 : max_op_domain_ratio ms = 0 :=
    foldl_max_eq_self _ ms 0 fun m hm => le_of_eq (hz m hm).2.1
  have h3 : max_clearance_ars ms = 0 :=
    foldl_max_eq_self _ ms 0 fun m hm => le_of_eq (hz m hm).2.2.1
  have h4 : max_clearance_vac ms = 0 :=
    foldl_max_eq_self _ ms 0 fun m hm => le_of_eq (hz m hm).2.2.2.1
  have h5 : max_bbr ms = 0 :=
    foldl_max_eq_self _ ms 0 fun m hm => le_of_eq (hz m hm).2.2.2.2
  refine ⟨fun mx h => hguard v mx h, ⟨h1, h2, h3, h4, h5⟩, ?_⟩
  intro m hm
  exact ⟨by rw [h1]; exact hguard _ 0 heps, by rw [h2]; exact hguard _ 0 heps,
    by rw [h3]; exact hguard _ 0 heps, by rw [h4]; exact hguard _ 0 heps,
    by rw [h5]; exact hguard _ 0 heps⟩

/-- Witness for C4 on a one-record table whose every column is 0. -/
theorem C4_normalization_guard_witness :
    (∀ m ∈ [(default : fom_metrics)],
      m.critical_temperature = 0 ∧ m.operational_domain_ratio = 0 ∧
      m.defect_clearance_arsenic = 0 ∧ m.defect_clearance_vacancy = 0 ∧
      m.band_bending_resilience_mV = 0) ∧
    ((∀ max_value : ℚ, max_value ≤ double_epsilon →
        safe_norm 7 max_value = 0) ∧
     (max_ct [default] = 0 ∧ max_op_domain_ratio [default] = 0 ∧
      max_clearance_ars [default] = 0 ∧ max_clearance_vac [default] = 0 ∧
      max_bbr [default] = 0) ∧
     (∀ m ∈ [(default : fom_metrics)],
       safe_norm m.critical_temperature (max_ct [default]) = 0 ∧
       safe_norm m.operational_domain_ratio (max_op_domain_ratio [default]) = 0 ∧
       safe_norm m.defect_clearance_arsenic (max_clearance_ars [default]) = 0 ∧
       safe_norm m.defect_clearance_vacancy (max_clearance_vac [default]) = 0 ∧
       safe_norm m.band_bending_resilience_mV (max_bbr [default]) = 0)) := by
  have hz : ∀ m ∈ [(default : fom_metrics)],
      m.critical_temperature = 0 ∧ m.operational_domain_ratio = 0 ∧
      m.defect_clearance_arsenic = 0 ∧ m.defect_clearance_vacancy = 0 ∧
      m.band_bending_resilience_mV = 0 := by
    intro m hm
    rw [List.mem_singleton.mp hm]
    exact ⟨rfl, rfl, rfl, rfl, rfl⟩
  exact ⟨hz, C4_normalization_guard [default] 7 hz⟩

/-- C5: for every non-empty metric table of nonnegative raw metrics, the
aggregator selects as best index an in-range index achieving the minimal
chi score, the reported best chi is that minimal score, and when several
candidates achieve the identical minimal score the lowest index wins:
every strictly earlier candidate scores strictly worse. -/
theorem C5_argmin_first_occurrence (ms : List fom_metrics) (hne : ms ≠ [])
    (hnn : ∀ m ∈ ms, 0 ≤ m.critical_temperature ∧ 0 ≤ m.operational_domain_ratio ∧
      0 ≤ m.defect_clearance_arsenic ∧ 0 ≤ m.defect_clearance_vacancy ∧
      0 ≤ m.band_bending_resilience_mV) :
    (aggregate ms).best_index < ms.length ∧
    (aggregate ms).best_chi = chi_of ms (ms.getD (aggregate ms).best_index default) ∧
    (∀ j, j < ms.length →
      chi_of ms (ms.getD (aggregate ms).best_index default)
        ≤ chi_of ms (ms.getD j default)) ∧
    (∀ j, j < ms.length → j < (aggregate ms).best_index →
      chi_of ms (ms.getD (aggregate ms).best_index default)
        < chi_of ms (ms.getD j default)) := by
  have hall : ∀ c ∈ ms.map (chi_of ms), c < double_max := by
    intro c hc
    obtain ⟨m, hm, rfl⟩ := List.mem_map.mp hc
    exact lt_of_le_of_lt
      (chi_of_le_two ms m hm (hnn m hm).1 (hnn m hm).2.1 (hnn m hm).2.2.2.2)
      two_lt_double_max
  have hmapne : ms.map (chi_of ms) ≠ [] := by
    intro h
    exact hne (List.map_eq_nil.mp h)
  have hex : ∃ c ∈ ms.map (chi_of ms), c < double_max := by
    obtain ⟨c, hc⟩ := List.exists_mem_of_ne_nil _ hmapne
    exact ⟨c, hc, hall c hc⟩
  obtain ⟨k, hk, heq, hltb, hmin, hfirst⟩ :=
    selectBestAux_found (ms.map (chi_of ms)) double_max 0 0 hex
  have hpair : ((aggregate ms).best_chi, (aggregate ms).best_index)
      = ((ms.map (chi_of ms)).get ⟨k, hk⟩, 0 + k) := (aggregate_best ms).trans heq
  have hidx : (aggregate ms).best_index = k := by
    have h := congrArg Prod.snd hpair
    simpa using h
  have hkm : k < ms.length := by simpa using hk
  have hcol : ∀ (j : Nat) (hj : j < ms.length) (hj' : j < (ms.map (chi_of ms)).length),
      (ms.map (chi_of ms)).get ⟨j, hj'⟩ = chi_of ms (ms.getD j default) := by
    intro j hj hj'
    rw [List.getD_eq_get ms default hj]
    exact List.get_map ..
  refine ⟨by rw [hidx]; exact hkm, ?_, ?_, ?_⟩
  · rw [hidx, ← hcol k hkm hk]
    have h := congrArg Prod.fst hpair
    simpa using h
  · intro j hj
    have hj' : j < (ms.map (chi_of ms)).length := by simpa using hj
    rw [hidx, ← hcol k hkm hk, ← hcol j hj hj']
    exact hmin j hj'
  · intro j hj hjlt
    rw [hidx] at hjlt
    have hj' : j < (ms.map (chi_of ms)).length := by simpa using hj
    rw [hidx, ← hcol k hkm hk, ← hcol j hj hj']
    exact hfirst j hj' hjlt

/-- Witness for C5 on a two-record table whose records are identical, so
that the minimal chi is achieved twice and the earliest index wins. -/
theorem C5_argmin_first_occurrence_witness :
    ([worker_record 0 0 0 0 1, worker_record 0 0 0 0 1] ≠ [] ∧
     (∀ m ∈ [worker_record 0 0 0 0 1, worker_record 0 0 0 0 1],
       0 ≤ m.critical_temperature ∧ 0 ≤ m.operational_domain_ratio ∧
       0 ≤ m.defect_clearance_arsenic ∧ 0 ≤ m.defect_clearance_vacancy ∧
       0 ≤ m.band_bending_resilience_mV)) ∧
    ((aggregate [worker_record 0 0 0 0 1, worker_record 0 0 0 0 1]).best_index
        < [worker_record 0 0 0 0 1, worker_record 0 0 0 0 1].length ∧
     (aggregate [worker_record 0 0 0 0 1, worker_record 0 0 0 0 1]).best_chi
        = chi_of [worker_record 0 0 0 0 1, worker_record 0 0 0 0 1]
            ([worker_record 0 0 0 0 1, worker_record 0 0 0 0 1].getD
              (aggregate [worker_record 0 0 0 0 1,
                worker_record 0 0 0 0 1]).best_index default) ∧
     (∀ j, j < [worker_record 0 0 0 0 1, worker_record 0 0 0 0 1].length →
       chi_of [worker_record 0 0 0 0 1, worker_record 0 0 0 0 1]
           ([worker_record 0 0 0 0 1, worker_record 0 0 0 0 1].getD
             (aggregate [worker_record 0 0 0 0 1,
               worker_record 0 0 0 0 1]).best_index default)
         ≤ chi_of [worker_record 0 0 0 0 1, worker_record 0 0 0 0 1]
             ([worker_record 0 0 0 0 1, worker_record 0 0 0 0 1].getD j default)) ∧
     (∀ j, j < [worker_record 0 0 0 0 1, worker_record 0 0 0 0 1].length →
       j < (aggregate [worker_record 0 0 0 0 1,
             worker_record 0 0 0 0 1]).best_index →
       chi_of [worker_record 0 0 0 0 1, worker_record 0 0 0 0 1]
           ([worker_record 0 0 0 0 1, worker_record 0 0 0 0 1].getD
             (aggregate [worker_record 0 0 0 0 1,
               worker_record 0 0 0 0 1]).best_index default)
         < chi_of [worker_record 0 0 0 0 1, worker_record 0 0 0 0 1]
             ([worker_record 0 0 0 0 1,
               worker_record 0 0 0 0 1].getD j default))) := by
  have hne : [worker_record 0 0 0 0 1, worker_record 0 0 0 0 1] ≠ [] := by simp
  have hnn : ∀ m ∈ [worker_record 0 0 0 0 1, worker_record 0 0 0 0 1],
      0 ≤ m.critical_temperature ∧ 0 ≤ m.operational_domain_ratio ∧
      0 ≤ m.defect_clearance_arsenic ∧ 0 ≤ m.defect_clearance_vacancy ∧
      0 ≤ m.band_bending_resilience_mV := by
    intro m hm
    rcases List.mem_cons.mp hm with h | h
    · rw [h]; refine ⟨le_refl 0, le_refl 0, le_refl 0, le_refl 0, by norm_num [worker_record]⟩
    · rw [List.mem_singleton.mp h]
      refine ⟨le_refl 0, le_refl 0, le_refl 0, le_refl 0, by norm_num [worker_record]⟩
  exact ⟨⟨hne, hnn⟩,
    C5_argmin_first_occurrence [worker_record 0 0 0 0 1, worker_record 0 0 0 0 1] hne hnn⟩

/-- C6: the effective worker count equals
min(hardware concurrency, cap 128, parsed override if set, N), floored at
1 via the hardware fallback; the override can reduce but never increase
the hardware-derived value, a zero (hence also unparsable, which parses
to zero) override is ignored, and the three concrete scenarios with
hardware 8 and 10 candidates give 4, 8 and 8 workers. -/
theorem C6_worker_count_clamping (hc parsed N : Nat) (hp : 1 ≤ parsed)
    (hN : 1 ≤ N) :
    effective_thread_count hc (some parsed) N
      = min (min (min (if hc = 0 then 1 else hc) 128) parsed) N ∧
    effective_thread_count hc none N
      = min (min (if hc = 0 then 1 else hc) 128) N ∧
    effective_thread_count hc (some 0) N = effective_thread_count hc none N ∧
    effective_thread_count hc (some parsed) N ≤ effective_thread_count hc none N ∧
    effective_thread_count 8 (some 4) 10 = 4 ∧
    effective_thread_count 8 none 10 = 8 ∧
    effective_thread_count 8 (some 0) 10 = 8 := by
  refine ⟨?_, ?_, ?_, ?_, rfl, rfl, rfl⟩
  · simp only [effective_thread_count]
    split_ifs <;> omega
  · simp only [effective_thread_count]
    split_ifs <;> omega
  · simp only [effective_thread_count]
    split_ifs <;> omega
  · simp only [effective_thread_count]
    split_ifs <;> omega

/-- Witness for C6 at hardware concurrency 8, override 4, 10 candidates. -/
theorem C6_worker_count_clamping_witness :
    (1 ≤ 4 ∧ 1 ≤ 10) ∧
    (effective_thread_count 8 (some 4) 10
        = min (min (min (if (8 : Nat) = 0 then 1 else 8) 128) 4) 10 ∧
     effective_thread_count 8 none 10
        = min (min (if (8 : Nat) = 0 then 1 else 8) 128) 10 ∧
     effective_thread_count 8 (some 0) 10 = effective_thread_count 8 none 10 ∧
     effective_thread_count 8 (some 4) 10 ≤ effective_thread_count 8 none 10 ∧
     effective_thread_count 8 (some 4) 10 = 4 ∧
     effective_thread_count 8 none 10 = 8 ∧
     effective_thread_count 8 (some 0) 10 = 8) :=
  ⟨⟨by decide, by decide⟩,
   C6_worker_count_clamping 8 4 10 (by decide) (by decide)⟩

/-- C7: zero candidates short-circuit to the explicit no-result outcome
rather than an error, and when report persistence is requested both report
files are written containing only the header row and no data rows. -/
theorem C7_empty_input {α : Type} (gate_designs : List α)
    (computeMetric : α → fom_metrics) (h : gate_designs = []) :
    evaluate_fom_metrics gate_designs computeMetric = none ∧
    compute_fom gate_designs computeMetric true
      = (none, [{ header := fom_report_header, rows := [] },
                { header := fom_report_header, rows := [] }]) ∧
    (∀ file ∈ (compute_fom gate_designs computeMetric true).2,
      file.header = fom_report_header ∧ file.rows = []) := by
  subst h
  refine ⟨rfl, rfl, ?_⟩
  intro file hf
  have hsnd : (compute_fom ([] : List α) computeMetric true).2
      = [{ header := fom_report_header, rows := [] },
         { header := fom_report_header, rows := [] }] := rfl
  rw [hsnd] at hf
  rcases List.mem_cons.mp hf with h1 | h1
  · rw [h1]; exact ⟨rfl, rfl⟩
  · rw [List.mem_singleton.mp h1]; exact ⟨rfl, rfl⟩

/-- Witness for C7 on the empty candidate list. -/
theorem C7_empty_input_witness :
    ([] : List Unit) = [] ∧
    (evaluate_fom_metrics ([] : List Unit) (fun _ => default) = none ∧
     compute_fom ([] : List Unit) (fun _ => default) true
       = (none, [{ header := fom_report_header, rows := [] },
                 { header := fom_report_header, rows := [] }]) ∧
     (∀ file ∈ (compute_fom ([] : List Unit) (fun _ => default) true).2,
       file.header = fom_report_header ∧ file.rows = [])) :=
  ⟨rfl, C7_empty_input [] (fun _ => default) rfl⟩

/-- C8, counterexample: the claim that the propagated failure carries the
failing candidate index is false: two runs that fail at different
candidate indices (2 versus 3) with the same underlying error produce
byte-identical evaluation outcomes, so no context in the propagated
failure can identify the failing index. -/
theorem C8_no_index_context_cex :
    evaluate_fom_seq 5 (failAt 2) = evaluate_fom_seq 5 (failAt 3) ∧
    failAt 2 2 = Except.error () ∧
    failAt 3 2 = Except.ok {} ∧
    failAt 3 3 = Except.error () ∧
    (2 : Nat) ≠ 3 :=
  ⟨rfl, rfl, rfl, rfl, by decide⟩

/-- C8, amended: if the metric computation fails at any candidate index,
the sequential evaluation as a whole reports failure to the caller,
propagating the first failing computation's own error, and never returns
a result claiming success with a partially filled table; the propagated
error however does not carry the failing candidate index. -/
theorem C8_failure_propagation {ε : Type} (N : Nat)
    (compute : Nat → Except ε fom_metrics) (i : Nat) (e : ε) (hiN : i < N)
    (herr : compute i = .error e)
    (hpre : ∀ j, j < i → ∃ m, compute j = .ok m) :
    evaluate_fom_seq N compute = .error e ∧
    ∀ res, evaluate_fom_seq N compute ≠ .ok res := by
  have hN : ¬ N = 0 := by omega
  have hmap : mapExcept compute (List.range N) = .error e := by
    rw [List.range_eq_range' N]
    exact mapExcept_range_error compute e N 0 i (Nat.zero_le i) (by omega) herr
      (fun j _ hj => hpre j hj)
  have hres : evaluate_fom_seq N compute = .error e := by
    unfold evaluate_fom_seq
    rw [if_neg hN, hmap]
  exact ⟨hres, fun res h => by rw [hres] at h; exact Except.noConfusion h⟩

/-- Witness for C8 at five candidates with the failure at index 2. -/
theorem C8_failure_propagation_witness :
    ((2 : Nat) < 5 ∧ failAt 2 2 = Except.error () ∧
     (∀ j, j < 2 → ∃ m, failAt 2 j = Except.ok m)) ∧
    (evaluate_fom_seq 5 (failAt 2) = Except.error () ∧
     ∀ res, evaluate_fom_seq 5 (failAt 2) ≠ Except.ok res) := by
  have hpre : ∀ j, j < 2 → ∃ m, failAt 2 j = Except.ok m := by
    intro j hj
    refine ⟨{}, ?_⟩
    have hne : ¬ j = 2 := by omega
    simp [failAt, hne]
  exact ⟨⟨by decide, rfl, hpre⟩,
    C8_failure_propagation 5 (failAt 2) 2 () (by decide) rfl hpre⟩

/-- C9, counterexample: the claim that no field of a record is modified
after the worker's single write is false: the worker leaves the chi field
at its value-initialized 0, and the aggregation phase then overwrites it,
so the final slot differs from the worker-written record. -/
theorem C9_post_write_mutation_cex :
    ((aggregate [worker_record 1 0 0 0 0]).metrics.getD 0 default).chi_value
      ≠ (worker_record 1 0 0 0 0).chi_value ∧
    (aggregate [worker_record 1 0 0 0 0]).metrics ≠ [worker_record 1 0 0 0 0] := by
  have h1 : ((aggregate [worker_record 1 0 0 0 0]).metrics.getD 0 default).chi_value
      = -1 := by
    norm_num [aggregate, worker_record, chi_of, safe_norm, max_ct,
      max_op_domain_ratio, max_clearance_ars, max_clearance_vac, max_bbr,
      double_epsilon, w_ct, w_op_domain, w_defect_arsenic, w_defect_vacancy, w_bbr]
  have h2 : (worker_record 1 0 0 0 0).chi_value = 0 := rfl
  constructor
  · rw [h1, h2]
    norm_num
  · intro h
    have h3 := congrArg (fun l => (l.getD 0 default).chi_value) h
    simp only at h3
    rw [h1] at h3
    norm_num [worker_record] at h3

/-- C9, amended: each slot of the final table is the record written once
by the worker that claimed its index, with its five raw metric fields
untouched by later phases; only the derived chi field is additionally
written, once, by the single-threaded aggregation phase after all workers
complete. -/
theorem C9_raw_fields_single_write (ms : List fom_metrics) (i : Nat)
    (hi : i < ms.length) :
    (aggregate ms).metrics.length = ms.length ∧
    (aggregate ms).metrics.get? i
      = some { ms.getD i default with chi_value := chi_of ms (ms.getD i default) } ∧
    ((aggregate ms).metrics.getD i default).critical_temperature
      = (ms.getD i default).critical_temperature ∧
    ((aggregate ms).metrics.getD i default).operational_domain_ratio
      = (ms.getD i default).operational_domain_ratio ∧
    ((aggregate ms).metrics.getD i default).defect_clearance_arsenic
      = (ms.getD i default).defect_clearance_arsenic ∧
    ((aggregate ms).metrics.getD i default).defect_clearance_vacancy
      = (ms.getD i default).defect_clearance_vacancy ∧
    ((aggregate ms).metrics.getD i default).band_bending_resilience_mV
      = (ms.getD i default).band_bending_resilience_mV ∧
    ((aggregate ms).metrics.getD i default).chi_value
      = chi_of ms (ms.getD i default) := by
  have hlen : (aggregate ms).metrics.length = ms.length := by
    rw [aggregate_metrics]
    exact List.length_map ..
  have hget : (aggregate ms).metrics.get? i
      = some { ms.getD i default with chi_value := chi_of ms (ms.getD i default) } := by
    rw [aggregate_metrics, List.get?_map, List.get?_eq_get hi,
      List.getD_eq_get ms default hi]
    rfl
  have hD : (aggregate ms).metrics.getD i default
      = { ms.getD i default with chi_value := chi_of ms (ms.getD i default) } := by
    rw [List.getD_eq_get?, hget]
    rfl
  rw [hD]
  exact ⟨hlen, hget, rfl, rfl, rfl, rfl, rfl, rfl⟩

/-- Witness for C9 on a one-record table with nonzero critical
temperature, at slot 0. -/
theorem C9_raw_fields_single_write_witness :
    (0 : Nat) < [worker_record 2 0 0 0 0].length ∧
    ((aggregate [worker_record 2 0 0 0 0]).metrics.length
        = [worker_record 2 0 0 0 0].length ∧
     (aggregate [worker_record 2 0 0 0 0]).metrics.get? 0
       = some { [worker_record 2 0 0 0 0].getD 0 default with
           chi_value := chi_of [worker_record 2 0 0 0 0]
             ([worker_record 2 0 0 0 0].getD 0 default) } ∧
     ((aggregate [worker_record 2 0 0 0 0]).metrics.getD 0 default).critical_temperature
       = ([worker_record 2 0 0 0 0].getD 0 default).critical_temperature ∧
     ((aggregate [worker_record 2 0 0 0 0]).metrics.getD 0 default).operational_domain_ratio
       = ([worker_record 2 0 0 0 0].getD 0 default).operational_domain_ratio ∧
     ((aggregate [worker_record 2 0 0 0 0]).metrics.getD 0 default).defect_clearance_arsenic
       = ([worker_record 2 0 0 0 0].getD 0 default).defect_clearance_arsenic ∧
     ((aggregate [worker_record 2 0 0 0 0]).metrics.getD 0 default).defect_clearance_vacancy
       = ([worker_record 2 0 0 0 0].getD 0 default).defect_clearance_vacancy ∧
     ((aggregate [worker_record 2 0 0 0 0]).metrics.getD 0 default).band_bending_resilience_mV
       = ([worker_record 2 0 0 0 0].getD 0 default).band_bending_resilience_mV ∧
     ((aggregate [worker_record 2 0 0 0 0]).metrics.getD 0 default).chi_value
       = chi_of [worker_record 2 0 0 0 0]
           ([worker_record 2 0 0 0 0].getD 0 default)) :=
  ⟨by decide, C9_raw_fields_single_write [worker_record 2 0 0 0 0] 0 (by decide)⟩

/-- C10: a hardware concurrency reported as 0 is treated as 1, so for
every non-empty input the effective worker count is exactly 1, at least 1,
and within the sequential path bound, whatever the override. -/
theorem C10_hw_concurrency_zero (env : Option Nat) (N : Nat) (hN : 1 ≤ N) :
    effective_thread_count 0 env N = 1 ∧
    1 ≤ effective_thread_count 0 env N ∧
    effective_thread_count 0 env N ≤ 1 := by
  have h : effective_thread_count 0 env N = 1 := by
    cases env with
    | none =>
      simp only [effective_thread_count]
      split_ifs <;> omega
    | some p =>
      simp only [effective_thread_count]
      split_ifs <;> omega
  exact ⟨h, le_of_eq h.symm, le_of_eq h⟩

/-- Witness for C10 with an override of 4 and five candidates. -/
theorem C10_hw_concurrency_zero_witness :
    (1 : Nat) ≤ 5 ∧
    (effective_thread_count 0 (some 4) 5 = 1 ∧
     1 ≤ effective_thread_count 0 (some 4) 5 ∧
     effective_thread_count 0 (some 4) 5 ≤ 1) :=
  ⟨by decide, C10_hw_concurrency_zero (some 4) 5 (by decide)⟩

end FanoutFom
